import Mathlib

/-!
Verification of the PeeringDB snapshot importer script
(scripts/build_peeringdb_dump.py).

The script fetches JSON snapshots for a fixed list of resources, upserts
rows keyed by (resource, obj_id) into one SQLite table named objects, and
then exports the table as SQL text files.  This development gives a shallow
embedding of that program:

* a JSON array element is abstracted by the three pieces the script reads
  from it: the optional integer id (obj.get with key id), the optional
  updated string (obj.get with key updated, defaulting to the empty
  string), and its compact serialization (json.dumps with compact
  separators), carried as an opaque string field;
* the objects table is a list of rows in rowid order; INSERT OR REPLACE
  deletes the conflicting row and appends the fresh row at the end, which
  is exactly what SQLite does with a fresh rowid;
* the export phase and the chunk-file replay are modelled at the level of
  character lists, with a parser that follows the SQLite rules for string
  literals (a quote is escaped by doubling it).
-/

/-- The single quote character, written by code point to keep source text plain. -/
def quoteC : Char := Char.ofNat 39

/-- One element of a fetched data array, abstracted by the fields the
script extracts: obj.get id, obj.get updated (optional), and the compact
JSON serialization of the whole element. -/
structure JsonObj where
  id? : Option Int
  updated? : Option String
  dump : String
deriving Repr, DecidableEq

/-- One row of the objects table:
resource TEXT, obj_id INTEGER, updated TEXT, payload TEXT,
PRIMARY KEY (resource, obj_id). -/
structure Row where
  resource : String
  obj_id : Int
  updated : String
  payload : String
deriving Repr, DecidableEq

/-- The fixed resource list RESOURCES of the script. -/
def RESOURCES : List String :=
  ["org", "campus", "fac", "net", "ix", "carrier", "carrierfac",
   "ixfac", "ixlan", "ixpfx", "netfac", "netixlan"]

/-- Key comparison on rows: both primary key columns agree. -/
def sameKeyB (a b : Row) : Bool :=
  a.resource == b.resource && a.obj_id == b.obj_id

/-- INSERT OR REPLACE INTO objects: the row that conflicts on the primary
key (resource, obj_id) is deleted and the new row is inserted with a fresh
rowid, i.e. appended at the end of the scan order. -/
def upsert (s : List Row) (r : Row) : List Row :=
  s.filter (fun x => !(sameKeyB x r)) ++ [r]

/-- The row the script builds from one data element for resource res:
(res, obj.get id, obj.get updated defaulting to empty, compact dump).
The getD 0 is only ever exercised when the id is present; an absent id
makes fetch_and_store fail before this row is used. -/
def rowFor (res : String) (o : JsonObj) : Row :=
  ⟨res, o.id?.getD 0, o.updated?.getD "", o.dump⟩

/-- The import step for one resource (the body of the per-resource loop of
main): build one row per array element and run executemany with
INSERT OR REPLACE.  An element without an id yields None for obj_id and
the NOT NULL constraint on the obj_id column raises, modelled by the
error case. -/
def fetch_and_store (res : String) : List JsonObj → List Row → Except String (List Row)
  | [], s => .ok s
  | o :: data, s =>
    match o.id? with
    | none => .error "NOT NULL constraint failed: objects.obj_id"
    | some i => fetch_and_store res data (upsert s ⟨res, i, o.updated?.getD "", o.dump⟩)

/-- The pure state transformer underlying fetch_and_store: fold the upsert
over the data array in order. -/
def storeAfter (res : String) (data : List JsonObj) (s : List Row) : List Row :=
  data.foldl (fun st o => upsert st (rowFor res o)) s

/-- The ids extracted from a data array, in array order. -/
def idsOf (data : List JsonObj) : List Int :=
  data.map (fun o => o.id?.getD 0)

/-- Membership test of a store row id among the fetched ids. -/
def memIdB (i : Int) (ids : List Int) : Bool :=
  ids.any (fun j => i == j)

/-- A run touches exactly the keys (res, i) with i an id of the fetched
array; rows with other keys pass through the import untouched. -/
def touchedB (res : String) (data : List JsonObj) (r : Row) : Bool :=
  r.resource == res && memIdB r.obj_id (idsOf data)

/-- Key predicate on rows: primary key equal to (res, i). -/
def keyB (res : String) (i : Int) (r : Row) : Bool :=
  r.resource == res && r.obj_id == i

/-- Primary key equality on rows. -/
def KeyEq (a b : Row) : Prop :=
  a.resource = b.resource ∧ a.obj_id = b.obj_id

/-- The invariant enforced by PRIMARY KEY (resource, obj_id): no two rows
of the table share a key. -/
def KeysUnique (s : List Row) : Prop :=
  s.Pairwise (fun a b => ¬ KeyEq a b)

instance (a b : Row) : Decidable (KeyEq a b) :=
  inferInstanceAs (Decidable (a.resource = b.resource ∧ a.obj_id = b.obj_id))

instance (s : List Row) : Decidable (KeysUnique s) :=
  inferInstanceAs (Decidable (s.Pairwise (fun a b => ¬ KeyEq a b)))

/-- The per-resource import loop of main, over the fixed resource list.
Each entry pairs a resource with the outcome of fetching and decoding its
snapshot (urlopen plus json.load plus the data key lookup); a fetch or
decode failure is an error value.  The prior content of the store file is
a parameter only to record that the run discards it: the executescript at
the top of main begins with DROP TABLE IF EXISTS objects and recreates
the table empty. -/
def runImportAux : List (String × Except String (List JsonObj)) → List Row →
    Except String (List Row)
  | [], s => .ok s
  | (res, d) :: rest, s =>
    match d with
    | .error e => .error e
    | .ok data =>
      match fetch_and_store res data s with
      | .error e => .error e
      | .ok s2 => runImportAux rest s2

/-- The import phase of a whole run: the prior store content is dropped
(DROP TABLE IF EXISTS objects) and the per-resource loop starts from the
empty table. -/
def runImport (fetches : List (String × Except String (List JsonObj)))
    (prior : List Row) : Except String (List Row) :=
  runImportAux fetches []

/-- The process outcome of main: 0 on success, and any error propagates
uncaught through raise SystemExit(main()), giving a non-zero exit. -/
def mainRun (fetches : List (String × Except String (List JsonObj)))
    (prior : List Row) : Except String Nat :=
  (runImport fetches prior).map (fun _ => 0)

/-- The payload escaping of the script, payload.replace of one quote by
two, applied characterwise. -/
def escChars : List Char → List Char
  | [] => []
  | c :: cs => if c = quoteC then quoteC :: quoteC :: escChars cs else c :: escChars cs

/-- True when the string has no single quote character. -/
def noQuote (s : String) : Bool :=
  s.data.all (fun c => !(c == quoteC))

/-- Decimal digits of a natural number, most significant first, with a
fuel argument for structural recursion. -/
def natDigitsAux : Nat → Nat → List Char → List Char
  | 0, _, acc => acc
  | fuel+1, n, acc =>
    if n < 10 then Nat.digitChar n :: acc
    else natDigitsAux fuel (n / 10) (Nat.digitChar (n % 10) :: acc)

/-- Decimal digits of a natural number. -/
def natDigits (n : Nat) : List Char :=
  natDigitsAux (n + 1) n []

/-- Python str of an int: optional minus sign, then decimal digits. -/
def intToDec (i : Int) : List Char :=
  if i < 0 then '-' :: natDigits i.natAbs else natDigits i.toNat

/-- The fixed text of the DELETE statement up to the opening quote of the
resource literal. -/
def delPad : List Char :=
  "DELETE FROM objects WHERE resource = \x27".data

/-- The fixed text of the INSERT OR REPLACE statement up to the opening
quote of the resource literal. -/
def insPad : List Char :=
  "INSERT OR REPLACE INTO objects (resource,obj_id,updated,payload) VALUES (\x27".data

/-- The head line of the chunk file for a resource, with the resource
name interpolated verbatim. -/
def deleteLineL (res : String) : List Char :=
  delPad ++ res.data ++ "\x27;".data

/-- One INSERT OR REPLACE statement of a chunk file, exactly as the
f-string of the script builds it: resource and updated interpolated
verbatim, payload with quotes doubled. -/
def insertLineL (res : String) (i : Int) (upd payl : String) : List Char :=
  insPad ++ res.data ++ "\x27,".data ++ intToDec i ++ ",\x27".data ++ upd.data
    ++ "\x27,\x27".data ++ escChars payl.data ++ "\x27);".data

/-- The rows the export SELECT returns for one resource: WHERE resource
equals res, in table scan order. -/
def rowsFor (res : String) (store : List Row) : List Row :=
  store.filter (fun r => r.resource == res)

/-- The chunk file d1_sql/<res>.sql as the list of statements written to
it: the leading DELETE, then one INSERT OR REPLACE per selected row. -/
def chunkFileStmts (res : String) (store : List Row) : List (List Char) :=
  deleteLineL res ::
    (rowsFor res store).map (fun r => insertLineL res r.obj_id r.updated r.payload)

/-- Consume an expected sequence of characters. -/
def dropLead : List Char → List Char → Option (List Char)
  | [], cs => some cs
  | _ :: _, [] => none
  | p :: ps, c :: cs => if c = p then dropLead ps cs else none

/-- SQLite string-literal body: after the opening quote, read characters,
un-doubling doubled quotes, up to the closing quote. -/
def parseLitAux : List Char → List Char → Option (List Char × List Char)
  | [], _ => none
  | [c], acc => if c = quoteC then some (acc.reverse, []) else none
  | c1 :: c2 :: rest, acc =>
    if c1 = quoteC then
      if c2 = quoteC then parseLitAux rest (quoteC :: acc)
      else some (acc.reverse, c2 :: rest)
    else parseLitAux (c2 :: rest) (c1 :: acc)

/-- Longest digit run at the head of the input. -/
def takeDigits : List Char → List Char × List Char
  | [] => ([], [])
  | c :: cs =>
    if c.isDigit then
      let p := takeDigits cs
      (c :: p.1, p.2)
    else ([], c :: cs)

/-- Decimal value of a digit run, accumulator style. -/
def digitsValAux : Nat → List Char → Nat
  | a, [] => a
  | a, c :: cs => digitsValAux (a * 10 + (c.toNat - 48)) cs

/-- Parse a nonempty digit run into a natural number. -/
def parseNat (cs : List Char) : Option (Nat × List Char) :=
  match takeDigits cs with
  | ([], _) => none
  | (ds, rest) => some (digitsValAux 0 ds, rest)

/-- Parse an optionally signed decimal integer literal. -/
def parseInt : List Char → Option (Int × List Char)
  | [] => none
  | c :: cs =>
    if c = '-' then (parseNat cs).map (fun p => (-(p.1 : Int), p.2))
    else (parseNat (c :: cs)).map (fun p => ((p.1 : Int), p.2))

/-- A parsed chunk-file statement. -/
inductive PStmt where
  | sqlDelete (res : String)
  | sqlInsert (r : Row)
deriving Repr, DecidableEq

/-- Parse one emitted statement, following the grammar the script emits
and the SQLite lexical rules for string literals; any other shape is a
syntax error. -/
def parseStmtChars (cs : List Char) : Option PStmt :=
  match dropLead delPad cs with
  | some r1 =>
    (parseLitAux r1 []).bind (fun a =>
      if a.2 = [';'] then some (.sqlDelete (String.mk a.1)) else none)
  | none =>
    (dropLead insPad cs).bind (fun r1 =>
      (parseLitAux r1 []).bind (fun a =>
        (dropLead [','] a.2).bind (fun r3 =>
          (parseInt r3).bind (fun b =>
            (dropLead [',', quoteC] b.2).bind (fun r5 =>
              (parseLitAux r5 []).bind (fun c =>
                (dropLead [',', quoteC] c.2).bind (fun r7 =>
                  (parseLitAux r7 []).bind (fun d =>
                    if d.2 = [')', ';'] then
                      some (.sqlInsert ⟨String.mk a.1, b.1, String.mk c.1, String.mk d.1⟩)
                    else none))))))))

/-- Effect of one statement on the objects table. -/
def applyStmt (tbl : List Row) : PStmt → List Row
  | .sqlDelete res => tbl.filter (fun r => !(r.resource == res))
  | .sqlInsert r => upsert tbl r

/-- Replay a list of statements against a table; a statement that fails
to parse aborts the replay (SQLite raises a syntax error there). -/
def replayAux : List (List Char) → List Row → Option (List Row)
  | [], tbl => some tbl
  | l :: ls, tbl =>
    match parseStmtChars l with
    | none => none
    | some st => replayAux ls (applyStmt tbl st)

/-- Replay a chunk file against the empty objects table. -/
def replayChunk (ls : List (List Char)) : Option (List Row) :=
  replayAux ls []

/-- The whitespace characters Python str.strip removes, ASCII range. -/
def isPySpace (c : Char) : Bool :=
  c == ' ' || c == '\t' || c == '\n' || c == '\r' || c == '\x0b' || c == '\x0c'

/-- Python str.strip: drop leading and trailing whitespace. -/
def pyStrip (cs : List Char) : List Char :=
  ((cs.dropWhile isPySpace).reverse.dropWhile isPySpace).reverse

/-- Boolean head-sequence test on character lists. -/
def leadsWith : List Char → List Char → Bool
  | [], _ => true
  | _ :: _, [] => false
  | p :: ps, c :: cs => c == p && leadsWith ps cs

/-- The skip condition of the filtered-dump loop of the script: the line
is blank after strip, or its stripped form starts with one of the three
skip markers. -/
def skipLine (line : String) : Bool :=
  let s := pyStrip line.data
  s.isEmpty || leadsWith "BEGIN TRANSACTION".data s
    || leadsWith "COMMIT".data s || leadsWith "PRAGMA".data s

/-- The filtered dump: every line of the full dump whose stripped form is
neither blank nor one of the skipped statement kinds, kept verbatim and
in order. -/
def filteredDump (lines : List String) : List String :=
  lines.filter (fun l => !(skipLine l))

theorem storeAfter_nil (res : String) (s : List Row) : storeAfter res [] s = s := rfl

theorem storeAfter_cons (res : String) (o : JsonObj) (data : List JsonObj) (s : List Row) :
    storeAfter res (o :: data) s = storeAfter res data (upsert s (rowFor res o)) := rfl

theorem storeAfter_concat (res : String) (o : JsonObj) (data : List JsonObj) (s : List Row) :
    storeAfter res (data ++ [o]) s = upsert (storeAfter res data s) (rowFor res o) := by
  simp [storeAfter, List.foldl_append]

/-- fetch_and_store succeeds exactly when every array element carries an
id, and in that case its result is the fold of the upserts. -/
theorem fetch_and_store_eq_ok_iff (res : String) (data : List JsonObj) (s : List Row)
    (out : List Row) :
    fetch_and_store res data s = .ok out ↔
      ((∀ o ∈ data, (o.id?).isSome) ∧ out = storeAfter res data s) := by
  induction data generalizing s with
  | nil =>
    show Except.ok s = .ok out ↔ _
    rw [storeAfter_nil]
    constructor
    · intro h
      exact ⟨(by intro o ho; cases ho), ((Except.ok.injEq _ _).mp h).symm⟩
    · rintro ⟨-, rfl⟩
      rfl
  | cons o data ih =>
    cases hid : o.id? with
    | none =>
      simp only [fetch_and_store, hid]
      constructor
      · intro h; cases h
      · rintro ⟨hall, -⟩
        exact absurd (hall o (by simp)) (by simp [hid])
    | some i =>
      simp only [fetch_and_store, hid]
      rw [ih]
      constructor
      · rintro ⟨hall, hout⟩
        refine ⟨?_, ?_⟩
        · intro o' ho'
          rcases List.mem_cons.mp ho' with h | h
          · subst h; simp [hid]
          · exact hall o' h
        · rw [hout, storeAfter_cons]
          simp [rowFor, hid]
      · rintro ⟨hall, hout⟩
        refine ⟨fun o' ho' => hall o' (List.mem_cons_of_mem _ ho'), ?_⟩
        rw [hout, storeAfter_cons]
        simp [rowFor, hid]

theorem idsOf_append (data : List JsonObj) (o : JsonObj) :
    idsOf (data ++ [o]) = idsOf data ++ [o.id?.getD 0] := by
  simp [idsOf]

theorem memIdB_append (i : Int) (l : List Int) (j : Int) :
    memIdB i (l ++ [j]) = (memIdB i l || (i == j)) := by
  simp [memIdB, List.any_append]

theorem memIdB_nil (i : Int) : memIdB i [] = false := rfl

theorem filter_pair {α : Type} (p q : α → Bool) (s : List α) :
    (s.filter p).filter q = s.filter (fun r => p r && q r) := by
  induction s with
  | nil => rfl
  | cons a t ih => cases hp : p a <;> cases hq : q a <;> simp [List.filter_cons, hp, hq, ih]

theorem bool_taut1 (a b c : Bool) : (!(a && b) && !(a && c)) = !(a && (b || c)) := by
  cases a <;> cases b <;> cases c <;> rfl

theorem upsert_def (s : List Row) (r : Row) :
    upsert s r = s.filter (fun x => !(sameKeyB x r)) ++ [r] := rfl

/-- Decomposition of the import fold: the untouched part of the prior
store stays in front, unchanged, and the rows built from the fetched
array (with last occurrence winning) are appended behind it. -/
theorem storeAfter_decomp (res : String) (data : List JsonObj) (s : List Row) :
    storeAfter res data s =
      s.filter (fun r => !(touchedB res data r)) ++ storeAfter res data [] := by
  induction data using List.reverseRecOn with
  | nil =>
    simp [storeAfter_nil, touchedB, memIdB, idsOf]
  | append_singleton d o ih =>
    rw [storeAfter_concat, storeAfter_concat, ih, upsert_def, upsert_def,
      List.filter_append, List.append_assoc]
    congr 1
    rw [filter_pair]
    refine List.filter_congr (fun r _ => ?_)
    have hsk : sameKeyB r (rowFor res o) = (r.resource == res && r.obj_id == o.id?.getD 0) := by
      simp [sameKeyB, rowFor]
    rw [hsk]
    simp only [touchedB, idsOf_append, memIdB_append]
    exact bool_taut1 _ _ _

/-- Every row produced by the import fold over an empty store belongs to
the imported resource and carries one of the fetched ids. -/
theorem mem_storeAfter_nil (res : String) (r : Row) :
    ∀ data : List JsonObj, r ∈ storeAfter res data [] →
      r.resource = res ∧ memIdB r.obj_id (idsOf data) = true := by
  intro data
  induction data using List.reverseRecOn with
  | nil => intro hr; cases hr
  | append_singleton d o ih =>
    intro hr
    rw [storeAfter_concat, upsert_def] at hr
    rcases List.mem_append.mp hr with h | h
    · obtain ⟨hres, hid⟩ := ih (List.mem_of_mem_filter h)
      exact ⟨hres, by simp [idsOf_append, memIdB_append, hid]⟩
    · have : r = rowFor res o := by simpa using h
      subst this
      exact ⟨rfl, by simp [idsOf_append, memIdB_append, rowFor]⟩

theorem bool_taut2 (b : Bool) : (!b && b) = false := by
  cases b <;> rfl

/-- Rows under a fixed key after the import fold: the last array element
carrying that id wins; keys never fetched keep their prior rows. -/
theorem filter_key_storeAfter (res : String) (i : Int) (s : List Row) :
    ∀ data : List JsonObj, (∀ o ∈ data, (o.id?).isSome) →
    (storeAfter res data s).filter (keyB res i) =
      (match (data.filter (fun o => o.id? == some i)).getLast? with
       | some o => [⟨res, i, o.updated?.getD "", o.dump⟩]
       | none => s.filter (keyB res i)) := by
  intro data
  induction data using List.reverseRecOn with
  | nil =>
    intro _
    simp [storeAfter_nil]
  | append_singleton d o ih =>
    intro hall
    have hall' : ∀ x ∈ d, (x.id?).isSome := fun x hx => hall x (by simp [hx])
    obtain ⟨j, hj⟩ : ∃ j, o.id? = some j := Option.isSome_iff_exists.mp (hall o (by simp))
    have hrow : rowFor res o = ⟨res, j, o.updated?.getD "", o.dump⟩ := by
      simp [rowFor, hj]
    rw [storeAfter_concat, upsert_def, List.filter_append, filter_pair]
    by_cases hji : j = i
    · have h1 : (storeAfter res d s).filter
          (fun x => !(sameKeyB x (rowFor res o)) && keyB res i x) = [] := by
        have hpt : ∀ x ∈ storeAfter res d s,
            (!(sameKeyB x (rowFor res o)) && keyB res i x) = (fun _ => false) x := by
          intro x _
          have hsk : sameKeyB x (rowFor res o) = keyB res i x := by
            rw [hrow]; simp [sameKeyB, keyB, hji]
          rw [hsk, bool_taut2]
        rw [List.filter_congr hpt, List.filter_false]
      have h2 : List.filter (keyB res i) [rowFor res o] = [rowFor res o] := by
        rw [hrow]; simp [keyB, hji]
      rw [h1, h2, List.nil_append]
      have h3 : (d ++ [o]).filter (fun x => x.id? == some i) =
          d.filter (fun x => x.id? == some i) ++ [o] := by
        rw [List.filter_append]
        congr 1
        simp [hj, hji]
      rw [h3, List.getLast?_concat, hrow, hji]
    · have hij' : ¬ i = j := fun h => hji h.symm
      have h2 : List.filter (keyB res i) [rowFor res o] = [] := by
        rw [hrow]
        simp only [keyB, List.filter_cons, List.filter_nil]
        have hb : ((⟨res, j, o.updated?.getD "", o.dump⟩ : Row).obj_id == i) = false := by
          simp [hji]
        simp [hb]
      have h1 : (storeAfter res d s).filter
          (fun x => !(sameKeyB x (rowFor res o)) && keyB res i x) =
          (storeAfter res d s).filter (keyB res i) := by
        refine List.filter_congr (fun x _ => ?_)
        by_cases hx : keyB res i x = true
        · have hxi : x.obj_id = i := by
            have hx2 := hx
            simp only [keyB, Bool.and_eq_true, beq_iff_eq] at hx2
            exact hx2.2
          have hsk : sameKeyB x (rowFor res o) = false := by
            rw [hrow]
            simp only [sameKeyB]
            have hbj : (x.obj_id == j) = false := by
              simp [hxi, hij']
            simp [hbj]
          simp [hsk, hx]
        · have hx' : keyB res i x = false := by
            cases h : keyB res i x
            · rfl
            · exact absurd h hx
          simp [hx']
      have h3 : (d ++ [o]).filter (fun x => x.id? == some i) =
          d.filter (fun x => x.id? == some i) := by
        rw [List.filter_append]
        have hb : (o.id? == some i) = false := by
          simp [hj, hji]
        simp [hb]
      rw [h1, h2, h3, List.append_nil, ih hall']

theorem sameKeyB_iff (a b : Row) : sameKeyB a b = true ↔ KeyEq a b := by
  simp [sameKeyB, KeyEq]

theorem keysUnique_upsert {s : List Row} (h : KeysUnique s) (r : Row) :
    KeysUnique (upsert s r) := by
  rw [upsert_def]
  refine List.pairwise_append.mpr ⟨List.Pairwise.sublist (List.filter_sublist s) h, ?_, ?_⟩
  · simp [List.pairwise_singleton]
  · intro a ha b hb
    have hb' : b = r := by simpa using hb
    have hf := (List.mem_filter.mp ha).2
    intro hk
    rw [hb'] at hk
    have hkt : sameKeyB a r = true := (sameKeyB_iff a r).mpr hk
    simp [hkt] at hf

theorem keysUnique_storeAfter (res : String) (data : List JsonObj) :
    ∀ s : List Row, KeysUnique s → KeysUnique (storeAfter res data s) := by
  induction data with
  | nil => intro s h; exact h
  | cons o d ih =>
    intro s h
    rw [storeAfter_cons]
    exact ih _ (keysUnique_upsert h _)

theorem length_filter_partition {α : Type} (p : α → Bool) (l : List α) :
    l.length = (l.filter p).length + (l.filter (fun a => !(p a))).length := by
  induction l with
  | nil => rfl
  | cons a t ih => cases hp : p a <;> simp [List.filter_cons, hp, ih] <;> omega

theorem sameKeyB_rowFor (x : Row) (res : String) (o : JsonObj) (j : Int)
    (hj : o.id? = some j) : sameKeyB x (rowFor res o) = keyB res j x := by
  simp [sameKeyB, keyB, rowFor, hj]

/-- The number of rows produced by importing a data array into an empty
store is the number of distinct ids of the array. -/
theorem length_storeAfter_nil (res : String) :
    ∀ data : List JsonObj, (∀ o ∈ data, (o.id?).isSome) →
      (storeAfter res data []).length =
        (data.filterMap (fun o => o.id?)).toFinset.card := by
  intro data
  induction data using List.reverseRecOn with
  | nil => intro _; simp [storeAfter_nil]
  | append_singleton d o ih =>
    intro hall
    have hall' : ∀ x ∈ d, (x.id?).isSome := fun x hx => hall x (by simp [hx])
    obtain ⟨j, hj⟩ : ∃ j, o.id? = some j := Option.isSome_iff_exists.mp (hall o (by simp))
    have hfm : ((d ++ [o]).filterMap (fun o => o.id?)).toFinset =
        insert j (d.filterMap (fun o => o.id?)).toFinset := by
      rw [List.filterMap_append]
      simp [hj, List.toFinset_append, Finset.union_comm, Finset.insert_eq]
    have hkey := filter_key_storeAfter res j [] d hall'
    have hpart := length_filter_partition (keyB res j) (storeAfter res d [])
    have hups : (storeAfter res (d ++ [o]) []).length =
        ((storeAfter res d []).filter (fun x => !(keyB res j x))).length + 1 := by
      rw [storeAfter_concat, upsert_def]
      rw [List.filter_congr (fun x _ => by rw [sameKeyB_rowFor x res o j hj])]
      simp
    by_cases hmem : j ∈ d.filterMap (fun o => o.id?)
    · obtain ⟨o', ho', hj'⟩ := List.mem_filterMap.mp hmem
      have hne : d.filter (fun x => x.id? == some j) ≠ [] := by
        intro hnil
        exact absurd hj' (by simpa using List.filter_eq_nil_iff.mp hnil o' ho')
      obtain ⟨w, hw⟩ := Option.ne_none_iff_exists'.mp
        (mt List.getLast?_eq_none_iff.mp hne)
      rw [hw] at hkey
      have hone : ((storeAfter res d []).filter (keyB res j)).length = 1 := by
        rw [hkey]; rfl
      rw [hfm, Finset.insert_eq_self.mpr (List.mem_toFinset.mpr hmem)]
      rw [hups]
      rw [hone] at hpart
      rw [ih hall'] at hpart
      omega
    · have hnil : d.filter (fun x => x.id? == some j) = [] := by
        rw [List.filter_eq_nil_iff]
        intro o' ho'
        simp only [beq_iff_eq]
        intro hj'
        exact hmem (List.mem_filterMap.mpr ⟨o', ho', hj'⟩)
      rw [hnil] at hkey
      have hzero : ((storeAfter res d []).filter (keyB res j)).length = 0 := by
        rw [hkey]; rfl
      rw [hfm, Finset.card_insert_of_not_mem (fun hc => hmem (List.mem_toFinset.mp hc))]
      rw [hups]
      rw [hzero] at hpart
      rw [ih hall'] at hpart
      omega

theorem runImportAux_append (l1 l2 : List (String × Except String (List JsonObj))) :
    ∀ s : List Row, runImportAux (l1 ++ l2) s =
      (match runImportAux l1 s with
       | .ok s2 => runImportAux l2 s2
       | .error e => .error e) := by
  induction l1 with
  | nil => intro s; rfl
  | cons p rest ih =>
    intro s
    obtain ⟨res, d⟩ := p
    cases d with
    | error e => rfl
    | ok data =>
      show runImportAux ((res, Except.ok data) :: (rest ++ l2)) s = _
      simp only [runImportAux]
      cases hfs : fetch_and_store res data s with
      | error e => rfl
      | ok s2 => exact ih s2

/-- A data array with an element lacking an id makes the executemany
raise: the obj_id column is NOT NULL. -/
theorem fetch_and_store_error_of_missing_id (res : String) :
    ∀ (data : List JsonObj) (s : List Row) (o : JsonObj),
      o ∈ data → o.id? = none → ∃ e, fetch_and_store res data s = .error e := by
  intro data
  induction data with
  | nil => intro s o ho; cases ho
  | cons a d ih =>
    intro s o ho hid
    cases ha : a.id? with
    | none =>
      refine ⟨"NOT NULL constraint failed: objects.obj_id", ?_⟩
      simp only [fetch_and_store, ha]
    | some i =>
      rcases List.mem_cons.mp ho with h | h
      · subst h; exact absurd ha (by simp [hid])
      · obtain ⟨e, he⟩ := ih (upsert s ⟨res, i, a.updated?.getD "", a.dump⟩) o h hid
        exact ⟨e, by simp only [fetch_and_store, ha]; exact he⟩

theorem noQuote_iff (s : String) : noQuote s = true ↔ ∀ c ∈ s.data, c ≠ quoteC := by
  simp [noQuote]

theorem escChars_nil : escChars [] = [] := rfl

theorem escChars_cons_quote (cs : List Char) :
    escChars (quoteC :: cs) = quoteC :: quoteC :: escChars cs := by
  simp [escChars]

theorem escChars_cons_other (c : Char) (cs : List Char) (hc : c ≠ quoteC) :
    escChars (c :: cs) = c :: escChars cs := by
  simp [escChars, hc]

theorem escChars_of_noQuote : ∀ cs : List Char, (∀ c ∈ cs, c ≠ quoteC) → escChars cs = cs := by
  intro cs
  induction cs with
  | nil => intro _; rfl
  | cons c t ih =>
    intro h
    rw [escChars_cons_other c t (h c (by simp))]
    rw [ih (fun d hd => h d (by simp [hd]))]

/-- Parsing a correctly escaped literal body recovers the original text:
completeness of the literal grammar. -/
theorem parseLitAux_complete :
    ∀ (u acc rest : List Char), rest.head? ≠ some quoteC →
      parseLitAux (escChars u ++ quoteC :: rest) acc = some (acc.reverse ++ u, rest) := by
  intro u
  induction u with
  | nil =>
    intro acc rest hrest
    rw [escChars_nil, List.nil_append]
    cases rest with
    | nil => simp [parseLitAux]
    | cons c cs =>
      have hc : ¬(c = quoteC) := fun h => hrest (by rw [h]; rfl)
      simp [parseLitAux, hc]
  | cons c u' ih =>
    intro acc rest hrest
    by_cases hc : c = quoteC
    · subst hc
      rw [escChars_cons_quote]
      show parseLitAux (quoteC :: quoteC :: (escChars u' ++ quoteC :: rest)) acc = _
      rw [show parseLitAux (quoteC :: quoteC :: (escChars u' ++ quoteC :: rest)) acc =
          parseLitAux (escChars u' ++ quoteC :: rest) (quoteC :: acc) by simp [parseLitAux]]
      rw [ih (quoteC :: acc) rest hrest]
      simp
    · rw [escChars_cons_other c u' hc]
      obtain ⟨d, ds, hds⟩ : ∃ d ds, escChars u' ++ quoteC :: rest = d :: ds := by
        cases h : escChars u' with
        | nil => exact ⟨quoteC, rest, by simp [h]⟩
        | cons e es => exact ⟨e, es ++ quoteC :: rest, by simp [h]⟩
      show parseLitAux (c :: (escChars u' ++ quoteC :: rest)) acc = _
      rw [hds]
      rw [show parseLitAux (c :: d :: ds) acc = parseLitAux (d :: ds) (c :: acc) by
        simp [parseLitAux, hc]]
      rw [← hds, ih (c :: acc) rest hrest]
      simp

/-- What a successful literal parse tells about its input: the consumed
text is the escaped form of the value followed by a closing quote, and
the remainder does not begin with a quote.  Soundness of the literal
grammar. -/
theorem parseLitAux_sound :
    ∀ (cs acc v rest : List Char), parseLitAux cs acc = some (v, rest) →
      ∃ w, v = acc.reverse ++ w ∧ cs = escChars w ++ quoteC :: rest ∧
        rest.head? ≠ some quoteC := by
  intro cs acc
  induction cs, acc using parseLitAux.induct with
  | case1 acc =>
    intro v rest h
    cases h
  | case2 acc =>
    intro v rest hp
    rw [show parseLitAux [quoteC] acc = some (acc.reverse, []) by simp [parseLitAux]] at hp
    obtain ⟨rfl, rfl⟩ : acc.reverse = v ∧ ([] : List Char) = rest := by
      have := (Option.some.injEq _ _).mp hp
      exact ⟨congrArg Prod.fst this, congrArg Prod.snd this⟩
    exact ⟨[], by simp, by simp [escChars_nil], by simp⟩
  | case3 c acc h =>
    intro v rest hp
    rw [show parseLitAux [c] acc = none by simp [parseLitAux, h]] at hp
    cases hp
  | case4 rest' acc ih =>
    intro v rest hp
    rw [show parseLitAux (quoteC :: quoteC :: rest') acc =
        parseLitAux rest' (quoteC :: acc) by simp [parseLitAux]] at hp
    obtain ⟨w', hv, hcs, hhead⟩ := ih v rest hp
    refine ⟨quoteC :: w', ?_, ?_, hhead⟩
    · rw [hv]; simp
    · rw [escChars_cons_quote, hcs]; simp
  | case5 c2 rest' acc h2 =>
    intro v rest hp
    rw [show parseLitAux (quoteC :: c2 :: rest') acc =
        some (acc.reverse, c2 :: rest') by simp [parseLitAux, h2]] at hp
    obtain ⟨rfl, rfl⟩ : acc.reverse = v ∧ c2 :: rest' = rest := by
      have := (Option.some.injEq _ _).mp hp
      exact ⟨congrArg Prod.fst this, congrArg Prod.snd this⟩
    refine ⟨[], by simp, by simp [escChars_nil], ?_⟩
    intro hc
    exact h2 (by simpa using hc)
  | case6 c1 c2 rest' acc h1 ih =>
    intro v rest hp
    rw [show parseLitAux (c1 :: c2 :: rest') acc =
        parseLitAux (c2 :: rest') (c1 :: acc) by simp [parseLitAux, h1]] at hp
    obtain ⟨w', hv, hcs, hhead⟩ := ih v rest hp
    refine ⟨c1 :: w', ?_, ?_, hhead⟩
    · rw [hv]; simp
    · rw [escChars_cons_other c1 w' h1, hcs]; simp

theorem replicate_absorb (j : Nat) (X : List Char) :
    List.replicate j quoteC ++ quoteC :: X = List.replicate (j + 1) quoteC ++ X := by
  rw [List.replicate_succ']
  simp

/-- A text whose escaped form, closed by a quote, coincides with the raw
text followed by quote and comma never contains a quote: the core of the
missing-escape argument for the updated column. -/
theorem esc_no_middle :
    ∀ (u : List Char) (j : Nat) (rest t : List Char),
      rest.head? ≠ some quoteC →
      List.replicate j quoteC ++ escChars u ++ quoteC :: rest = u ++ quoteC :: ',' :: t →
      j = 0 ∧ ∀ c ∈ u, c ≠ quoteC := by
  intro u
  induction u with
  | nil =>
    intro j rest t hrest heq
    rw [escChars_nil, List.append_nil] at heq
    cases j with
    | zero =>
      refine ⟨rfl, by intro c hc; cases hc⟩
    | succ j' =>
      exfalso
      rw [List.replicate_succ, List.cons_append] at heq
      have htail := (List.cons.injEq _ _ _ _).mp heq |>.2
      cases j' with
      | zero =>
        simp only [List.replicate_zero, List.nil_append] at htail
        have := (List.cons.injEq _ _ _ _).mp htail |>.1
        exact absurd this (by decide)
      | succ j'' =>
        rw [List.replicate_succ, List.cons_append] at htail
        have := (List.cons.injEq _ _ _ _).mp htail |>.1
        exact absurd this (by decide)
  | cons c u' ih =>
    intro j rest t hrest heq
    by_cases hc : c = quoteC
    · subst hc
      exfalso
      rw [escChars_cons_quote] at heq
      rw [show List.replicate j quoteC ++ (quoteC :: quoteC :: escChars u') ++ quoteC :: rest
          = List.replicate (j + 2) quoteC ++ escChars u' ++ quoteC :: rest by
        rw [show quoteC :: quoteC :: escChars u' = [quoteC, quoteC] ++ escChars u' from rfl]
        rw [show List.replicate (j + 2) quoteC = List.replicate j quoteC ++ [quoteC, quoteC] by
          rw [show j + 2 = (j + 1) + 1 from rfl, List.replicate_succ', List.replicate_succ']
          simp]
        simp [List.append_assoc]] at heq
      rw [show (j : Nat) + 2 = (j + 1) + 1 from rfl, List.replicate_succ,
        List.cons_append, List.cons_append] at heq
      have htail := (List.cons.injEq _ _ _ _).mp heq |>.2
      have := ih (j + 1) rest t hrest (by exact htail)
      omega
    · cases j with
      | succ j' =>
        exfalso
        rw [List.replicate_succ, List.cons_append] at heq
        have := (List.cons.injEq _ _ _ _).mp heq |>.1
        exact hc this.symm
      | zero =>
        simp only [List.replicate_zero, List.nil_append] at heq
        rw [escChars_cons_other c u' hc, List.cons_append, List.cons_append] at heq
        have htail := (List.cons.injEq _ _ _ _).mp heq |>.2
        have := ih 0 rest t hrest (by simpa using htail)
        refine ⟨rfl, ?_⟩
        intro d hd
        rcases List.mem_cons.mp hd with h | h
        · subst h; exact hc
        · exact this.2 d h

theorem digitChar_spec (m : Nat) (hm : m < 10) :
    (Nat.digitChar m).isDigit = true ∧ (Nat.digitChar m).toNat - 48 = m ∧
      Nat.digitChar m ≠ '-' ∧ Nat.digitChar m ≠ quoteC := by
  interval_cases m <;> exact ⟨by decide, by decide, by decide, by decide⟩

theorem natDigitsAux_acc (fuel : Nat) :
    ∀ n acc, n < 10 ^ fuel → natDigitsAux fuel n acc = natDigitsAux fuel n [] ++ acc := by
  induction fuel with
  | zero => intro n acc _; rfl
  | succ f ih =>
    intro n acc hn
    by_cases h10 : n < 10
    · simp [natDigitsAux, h10]
    · have hdiv : n / 10 < 10 ^ f := by
        rw [Nat.div_lt_iff_lt_mul (by norm_num)]
        calc n < 10 ^ (f + 1) := hn
        _ = 10 ^ f * 10 := by rw [Nat.pow_succ]
      rw [show natDigitsAux (f + 1) n acc =
          natDigitsAux f (n / 10) (Nat.digitChar (n % 10) :: acc) by
        simp [natDigitsAux, h10]]
      rw [show natDigitsAux (f + 1) n [] =
          natDigitsAux f (n / 10) [Nat.digitChar (n % 10)] by simp [natDigitsAux, h10]]
      rw [ih (n / 10) (Nat.digitChar (n % 10) :: acc) hdiv,
        ih (n / 10) [Nat.digitChar (n % 10)] hdiv]
      simp

theorem digitsValAux_concat (c : Char) :
    ∀ (L : List Char) (a : Nat),
      digitsValAux a (L ++ [c]) = digitsValAux a L * 10 + (c.toNat - 48) := by
  intro L
  induction L with
  | nil => intro a; rfl
  | cons e L ih =>
    intro a
    show digitsValAux (a * 10 + (e.toNat - 48)) (L ++ [c]) = _
    rw [ih]
    rfl

theorem natDigitsAux_step (fuel n : Nat) (acc : List Char) :
    natDigitsAux (fuel + 1) n acc =
      (if n < 10 then Nat.digitChar n :: acc
       else natDigitsAux fuel (n / 10) (Nat.digitChar (n % 10) :: acc)) := rfl

theorem digitsValAux_one (c : Char) : digitsValAux 0 [c] = c.toNat - 48 := by
  show 0 * 10 + (c.toNat - 48) = c.toNat - 48
  omega

theorem natDigitsAux_spec (fuel : Nat) :
    ∀ n, n < 10 ^ (fuel + 1) →
      (∀ c ∈ natDigitsAux (fuel + 1) n [], c.isDigit = true) ∧
      digitsValAux 0 (natDigitsAux (fuel + 1) n []) = n ∧
      natDigitsAux (fuel + 1) n [] ≠ [] := by
  induction fuel with
  | zero =>
    intro n hn
    have h10 : n < 10 := by simpa using hn
    rw [natDigitsAux_step 0 n [], if_pos h10]
    obtain ⟨hd, hv, -, -⟩ := digitChar_spec n h10
    refine ⟨by simpa using hd, ?_, by simp⟩
    rw [digitsValAux_one, hv]
  | succ f ih =>
    intro n hn
    by_cases h10 : n < 10
    · rw [natDigitsAux_step (f + 1) n [], if_pos h10]
      obtain ⟨hd, hv, -, -⟩ := digitChar_spec n h10
      refine ⟨by simpa using hd, ?_, by simp⟩
      rw [digitsValAux_one, hv]
    · have hdiv : n / 10 < 10 ^ (f + 1) := by
        rw [Nat.div_lt_iff_lt_mul (by norm_num)]
        calc n < 10 ^ (f + 1 + 1) := hn
        _ = 10 ^ (f + 1) * 10 := by rw [Nat.pow_succ]
      have hmod : n % 10 < 10 := Nat.mod_lt _ (by norm_num)
      obtain ⟨hdall, hval, hne⟩ := ih (n / 10) hdiv
      rw [natDigitsAux_step (f + 1) n [], if_neg h10]
      rw [natDigitsAux_acc (f + 1) (n / 10) [Nat.digitChar (n % 10)] hdiv]
      obtain ⟨hd, hv, -, -⟩ := digitChar_spec (n % 10) hmod
      refine ⟨?_, ?_, by simp⟩
      · intro c hc
        rcases List.mem_append.mp hc with h | h
        · exact hdall c h
        · have : c = Nat.digitChar (n % 10) := by simpa using h
          rw [this]; exact hd
      · rw [digitsValAux_concat, hval, hv]
        omega

theorem pow_ten_big : ∀ n : Nat, n < 10 ^ (n + 1) := by
  intro n
  induction n with
  | zero => decide
  | succ m ih =>
    have h1 : m + 1 ≤ 10 ^ (m + 1) := Nat.succ_le_of_lt ih
    have h2 : 10 ^ (m + 1) < 10 ^ (m + 1 + 1) := by
      rw [Nat.pow_succ]
      have hp : 0 < 10 ^ (m + 1) := Nat.pos_pow_of_pos _ (by norm_num)
      omega
    omega

theorem natDigits_spec (n : Nat) :
    (∀ c ∈ natDigits n, c.isDigit = true) ∧
      digitsValAux 0 (natDigits n) = n ∧ natDigits n ≠ [] :=
  natDigitsAux_spec n n (pow_ten_big n)

theorem takeDigits_split :
    ∀ (ds rest : List Char), (∀ c ∈ ds, c.isDigit = true) →
      (∀ c, rest.head? = some c → c.isDigit = false) →
      takeDigits (ds ++ rest) = (ds, rest) := by
  intro ds
  induction ds with
  | nil =>
    intro rest _ hrest
    cases rest with
    | nil => rfl
    | cons c cs =>
      have := hrest c rfl
      simp [takeDigits, this]
  | cons d ds ih =>
    intro rest hds hrest
    have hd : d.isDigit = true := hds d (by simp)
    have ihr := ih rest (fun c hc => hds c (by simp [hc])) hrest
    simp [takeDigits, hd, ihr]

theorem parseNat_natDigits (n : Nat) (rest : List Char)
    (hrest : ∀ c, rest.head? = some c → c.isDigit = false) :
    parseNat (natDigits n ++ rest) = some (n, rest) := by
  obtain ⟨hall, hval, hne⟩ := natDigits_spec n
  rw [parseNat, takeDigits_split (natDigits n) rest hall hrest]
  cases h : natDigits n with
  | nil => exact absurd h hne
  | cons c t =>
    rw [h] at hval
    simp [hval]

theorem natDigits_head_not_minus (n : Nat) :
    ∀ c, (natDigits n).head? = some c → c.isDigit = true := by
  intro c hc
  obtain ⟨hall, -, hne⟩ := natDigits_spec n
  cases h : natDigits n with
  | nil => exact absurd h hne
  | cons d t =>
    rw [h] at hc
    have hcd : d = c := by simpa using hc
    rw [← hcd]
    exact hall d (by simp [h])

theorem parseInt_intToDec (i : Int) (rest : List Char)
    (hrest : ∀ c, rest.head? = some c → c.isDigit = false) :
    parseInt (intToDec i ++ rest) = some (i, rest) := by
  by_cases hneg : i < 0
  · rw [show intToDec i = '-' :: natDigits i.natAbs by simp [intToDec, hneg]]
    show parseInt ('-' :: (natDigits i.natAbs ++ rest)) = _
    rw [show parseInt ('-' :: (natDigits i.natAbs ++ rest)) =
        (parseNat (natDigits i.natAbs ++ rest)).map (fun p => (-(p.1 : Int), p.2)) by
      simp [parseInt]]
    rw [parseNat_natDigits i.natAbs rest hrest]
    show some (-((i.natAbs : Nat) : Int), rest) = some (i, rest)
    rw [show -((i.natAbs : Nat) : Int) = i by omega]
  · rw [show intToDec i = natDigits i.toNat by simp [intToDec, hneg]]
    cases h : natDigits i.toNat with
    | nil => exact absurd h (natDigits_spec i.toNat).2.2
    | cons c t =>
      have hcd : c.isDigit = true := natDigits_head_not_minus i.toNat c (by simp [h])
      have hcm : ¬(c = '-') := by
        intro hcc
        rw [hcc] at hcd
        exact absurd hcd (by decide)
      show parseInt (c :: (t ++ rest)) = _
      rw [show parseInt (c :: (t ++ rest)) =
          (parseNat (c :: (t ++ rest))).map (fun p => ((p.1 : Int), p.2)) by
        simp [parseInt, hcm]]
      rw [show c :: (t ++ rest) = natDigits i.toNat ++ rest by rw [h]; rfl]
      rw [parseNat_natDigits i.toNat rest hrest]
      show some (((i.toNat : Nat) : Int), rest) = some (i, rest)
      rw [show ((i.toNat : Nat) : Int) = i by omega]

theorem dropLead_complete : ∀ (p r : List Char), dropLead p (p ++ r) = some r := by
  intro p
  induction p with
  | nil => intro r; rfl
  | cons c ps ih =>
    intro r
    show dropLead (c :: ps) (c :: (ps ++ r)) = some r
    simp [dropLead, ih]

theorem dropLead_sound : ∀ (p cs r : List Char), dropLead p cs = some r → cs = p ++ r := by
  intro p
  induction p with
  | nil =>
    intro cs r h
    have : cs = r := by simpa [dropLead] using h
    simp [this]
  | cons c ps ih =>
    intro cs r h
    cases cs with
    | nil => cases h
    | cons d ds =>
      by_cases hd : d = c
      · subst hd
        have h2 : dropLead ps ds = some r := by simpa [dropLead] using h
        rw [ih ds r h2]
        rfl
      · rw [show dropLead (c :: ps) (d :: ds) = none by simp [dropLead, hd]] at h
        cases h

theorem head_ne_quote (c : Char) (hc : c ≠ quoteC) (X : List Char) :
    (c :: X).head? ≠ some quoteC := by
  intro h
  exact hc (Option.some.inj h)

theorem head_comma_not_digit (X : List Char) :
    ∀ c, (',' :: X).head? = some c → c.isDigit = false := by
  intro c hc
  have : ',' = c := Option.some.inj hc
  rw [← this]
  decide

theorem deleteLineL_eq (res : String) :
    deleteLineL res = delPad ++ (res.data ++ quoteC :: [';']) := by
  rw [deleteLineL]
  rw [show ("\x27;".data) = [quoteC, ';'] by decide]
  simp [List.append_assoc]

theorem insertLineL_eq (res : String) (i : Int) (upd payl : String) :
    insertLineL res i upd payl =
      insPad ++ (res.data ++ quoteC :: ',' :: (intToDec i ++ ',' :: quoteC ::
        (upd.data ++ quoteC :: ',' :: quoteC ::
          (escChars payl.data ++ [quoteC, ')', ';'])))) := by
  rw [insertLineL]
  rw [show ("\x27,".data) = [quoteC, ','] by decide]
  rw [show (",\x27".data) = [',', quoteC] by decide]
  rw [show ("\x27,\x27".data) = [quoteC, ',', quoteC] by decide]
  rw [show ("\x27);".data) = [quoteC, ')', ';'] by decide]
  simp [List.append_assoc]

theorem parseStmtChars_ofDelete (cs r1 : List Char) (h : dropLead delPad cs = some r1) :
    parseStmtChars cs = (parseLitAux r1 []).bind (fun a =>
      if a.2 = [';'] then some (.sqlDelete (String.mk a.1)) else none) := by
  simp only [parseStmtChars, h]

theorem parseStmtChars_ofInsert (cs : List Char) (h : dropLead delPad cs = none) :
    parseStmtChars cs = (dropLead insPad cs).bind (fun r1 =>
      (parseLitAux r1 []).bind (fun a =>
        (dropLead [','] a.2).bind (fun r3 =>
          (parseInt r3).bind (fun b =>
            (dropLead [',', quoteC] b.2).bind (fun r5 =>
              (parseLitAux r5 []).bind (fun c =>
                (dropLead [',', quoteC] c.2).bind (fun r7 =>
                  (parseLitAux r7 []).bind (fun d =>
                    if d.2 = [')', ';'] then
                      some (.sqlInsert ⟨String.mk a.1, b.1, String.mk c.1, String.mk d.1⟩)
                    else none)))))))) := by
  simp only [parseStmtChars, h]

theorem dropLead_delPad_ins (X : List Char) : dropLead delPad (insPad ++ X) = none := rfl

/-- Parsing the emitted DELETE line recovers the resource it was
emitted for, when the resource name has no quote. -/
theorem parseStmt_deleteLine (res : String) (hres : noQuote res = true) :
    parseStmtChars (deleteLineL res) = some (.sqlDelete res) := by
  rw [deleteLineL_eq]
  rw [parseStmtChars_ofDelete _ _ (dropLead_complete delPad _)]
  have h2 : escChars res.data = res.data := escChars_of_noQuote _ ((noQuote_iff res).mp hres)
  have h3 := parseLitAux_complete res.data [] [';'] (by decide)
  rw [h2] at h3
  simp only [h3, Option.some_bind]
  rfl

/-- The deterministic part of parsing an emitted INSERT OR REPLACE line:
with a quote-free resource name, the parse always reaches the updated
literal with exactly the interpolated text ahead of it. -/
theorem parseStmt_insert_pipeline (res : String) (i : Int) (upd payl : String)
    (hres : noQuote res = true) :
    parseStmtChars (insertLineL res i upd payl) =
      (parseLitAux (upd.data ++ quoteC :: ',' :: quoteC ::
          (escChars payl.data ++ [quoteC, ')', ';'])) []).bind (fun c =>
        (dropLead [',', quoteC] c.2).bind (fun r7 =>
          (parseLitAux r7 []).bind (fun d =>
            if d.2 = [')', ';'] then
              some (.sqlInsert ⟨res, i, String.mk c.1, String.mk d.1⟩)
            else none))) := by
  rw [insertLineL_eq]
  rw [parseStmtChars_ofInsert _ (dropLead_delPad_ins _)]
  rw [dropLead_complete insPad _]
  simp only [Option.some_bind]
  have h2 : escChars res.data = res.data := escChars_of_noQuote _ ((noQuote_iff res).mp hres)
  have h3 := parseLitAux_complete res.data []
    (',' :: (intToDec i ++ ',' :: quoteC :: (upd.data ++ quoteC :: ',' :: quoteC ::
      (escChars payl.data ++ [quoteC, ')', ';']))))
    (head_ne_quote ',' (by decide) _)
  rw [h2] at h3
  simp only [h3, Option.some_bind]
  have h4 : dropLead [','] (',' :: (intToDec i ++ ',' :: quoteC ::
      (upd.data ++ quoteC :: ',' :: quoteC ::
        (escChars payl.data ++ [quoteC, ')', ';'])))) =
      some (intToDec i ++ ',' :: quoteC :: (upd.data ++ quoteC :: ',' :: quoteC ::
        (escChars payl.data ++ [quoteC, ')', ';']))) := rfl
  simp only [h4, Option.some_bind]
  have h5 := parseInt_intToDec i
    (',' :: quoteC :: (upd.data ++ quoteC :: ',' :: quoteC ::
      (escChars payl.data ++ [quoteC, ')', ';'])))
    (head_comma_not_digit _)
  simp only [h5, Option.some_bind]
  have h6 : dropLead [',', quoteC] (',' :: quoteC :: (upd.data ++ quoteC :: ',' :: quoteC ::
      (escChars payl.data ++ [quoteC, ')', ';']))) =
      some (upd.data ++ quoteC :: ',' :: quoteC ::
        (escChars payl.data ++ [quoteC, ')', ';'])) := rfl
  simp only [h6, Option.some_bind]
  rfl

/-- Parsing an emitted INSERT OR REPLACE line recovers exactly the row it
was emitted for, provided resource and updated contain no quote. -/
theorem parseStmt_insertLine (res : String) (i : Int) (upd payl : String)
    (hres : noQuote res = true) (hupd : noQuote upd = true) :
    parseStmtChars (insertLineL res i upd payl) =
      some (.sqlInsert ⟨res, i, upd, payl⟩) := by
  rw [parseStmt_insert_pipeline res i upd payl hres]
  have hu : escChars upd.data = upd.data := escChars_of_noQuote _ ((noQuote_iff upd).mp hupd)
  have h6 := parseLitAux_complete upd.data []
    (',' :: quoteC :: (escChars payl.data ++ [quoteC, ')', ';']))
    (head_ne_quote ',' (by decide) _)
  rw [hu] at h6
  rw [show upd.data ++ quoteC :: ',' :: quoteC :: (escChars payl.data ++ [quoteC, ')', ';'])
      = upd.data ++ quoteC :: (',' :: quoteC :: (escChars payl.data ++ [quoteC, ')', ';'])) from rfl]
  simp only [h6, Option.some_bind]
  have h7 : dropLead [',', quoteC] (',' :: quoteC :: (escChars payl.data ++ [quoteC, ')', ';'])) =
      some (escChars payl.data ++ [quoteC, ')', ';']) := rfl
  simp only [h7, Option.some_bind]
  have h8 := parseLitAux_complete payl.data [] [')', ';'] (head_ne_quote ')' (by decide) _)
  rw [show escChars payl.data ++ [quoteC, ')', ';']
      = escChars payl.data ++ quoteC :: [')', ';'] from rfl]
  simp only [h8, Option.some_bind]
  rfl

theorem upsert_fresh (tbl : List Row) (r : Row) (h : ∀ x ∈ tbl, ¬ KeyEq x r) :
    upsert tbl r = tbl ++ [r] := by
  rw [upsert_def]
  congr 1
  refine List.filter_eq_self.mpr ?_
  intro x hx
  cases hs : sameKeyB x r with
  | false => rfl
  | true => exact absurd ((sameKeyB_iff x r).mp hs) (h x hx)

theorem replayAux_insertLines (res : String) (hres : noQuote res = true) :
    ∀ (rows tbl : List Row),
      (∀ r ∈ rows, r.resource = res) →
      (∀ r ∈ rows, noQuote r.updated = true) →
      KeysUnique (tbl ++ rows) →
      replayAux (rows.map (fun r => insertLineL res r.obj_id r.updated r.payload)) tbl =
        some (tbl ++ rows) := by
  intro rows
  induction rows with
  | nil =>
    intro tbl _ _ _
    simp [replayAux]
  | cons r rs ih =>
    intro tbl hresall hupdall hu
    have hr : r.resource = res := hresall r (by simp)
    have hparse := parseStmt_insertLine res r.obj_id r.updated r.payload hres
      (hupdall r (by simp))
    have hrow : (⟨res, r.obj_id, r.updated, r.payload⟩ : Row) = r := by
      cases r with
      | mk a b c d =>
        simp only at hr ⊢
        rw [show a = res from hr]
    show replayAux (insertLineL res r.obj_id r.updated r.payload ::
      rs.map (fun x => insertLineL res x.obj_id x.updated x.payload)) tbl = _
    simp only [replayAux, hparse]
    show replayAux _ (upsert tbl (⟨res, r.obj_id, r.updated, r.payload⟩ : Row)) = _
    rw [hrow]
    have hfresh : ∀ x ∈ tbl, ¬ KeyEq x r := by
      have hsplit := List.pairwise_append.mp hu
      intro x hx
      exact hsplit.2.2 x hx r (by simp)
    rw [upsert_fresh tbl r hfresh]
    have hu2 : KeysUnique ((tbl ++ [r]) ++ rs) := by
      rw [show (tbl ++ [r]) ++ rs = tbl ++ (r :: rs) by simp]
      exact hu
    rw [ih (tbl ++ [r]) (fun x hx => hresall x (by simp [hx]))
      (fun x hx => hupdall x (by simp [hx])) hu2]
    simp

/-- Replaying the chunk file of a resource against an empty table yields
exactly the rows the store held for that resource, in scan order, when
keys are unique and neither the resource name nor any stored updated
value contains a quote. -/
theorem replayChunk_chunkFile (res : String) (store : List Row)
    (hu : KeysUnique store) (hres : noQuote res = true)
    (hupd : ∀ r ∈ store, r.resource = res → noQuote r.updated = true) :
    replayChunk (chunkFileStmts res store) = some (rowsFor res store) := by
  rw [replayChunk, chunkFileStmts]
  simp only [replayAux, parseStmt_deleteLine res hres]
  rw [show applyStmt [] (PStmt.sqlDelete res) = [] from rfl]
  have hresall : ∀ r ∈ rowsFor res store, r.resource = res := by
    intro r hrm
    have := (List.mem_filter.mp hrm).2
    simpa using this
  have hrun := replayAux_insertLines res hres (rowsFor res store) []
    hresall
    (fun r hrm => hupd r (List.mem_of_mem_filter hrm) (hresall r hrm))
    (by
      show KeysUnique ([] ++ rowsFor res store)
      rw [List.nil_append]
      exact List.Pairwise.sublist (List.filter_sublist store) hu)
  rw [hrun]
  simp

/-- With a quote inside the updated value, the emitted INSERT OR REPLACE
line never parses back to the row it was written for: the statement is
either a syntax error or denotes a different row. -/
theorem parseStmt_insertLine_quote (res : String) (i : Int) (upd payl : String)
    (hres : noQuote res = true) (hq : noQuote upd = false) :
    parseStmtChars (insertLineL res i upd payl) ≠
      some (.sqlInsert ⟨res, i, upd, payl⟩) := by
  intro h
  rw [parseStmt_insert_pipeline res i upd payl hres] at h
  cases hlit : parseLitAux (upd.data ++ quoteC :: ',' :: quoteC ::
      (escChars payl.data ++ [quoteC, ')', ';'])) [] with
  | none =>
    rw [hlit] at h
    cases h
  | some c =>
    rw [hlit] at h
    simp only [Option.some_bind] at h
    obtain ⟨w, hw, hcs, hhead⟩ := parseLitAux_sound _ [] c.1 c.2 (by rw [hlit])
    cases hdl : dropLead [',', quoteC] c.2 with
    | none =>
      rw [hdl] at h
      cases h
    | some r7 =>
      rw [hdl] at h
      simp only [Option.some_bind] at h
      cases hlit2 : parseLitAux r7 [] with
      | none =>
        rw [hlit2] at h
        cases h
      | some d =>
        rw [hlit2] at h
        simp only [Option.some_bind] at h
        by_cases hr8 : d.2 = [')', ';']
        · rw [if_pos hr8] at h
          have hrow := Option.some.inj h
          have hEq : (⟨res, i, String.mk c.1, String.mk d.1⟩ : Row) =
              ⟨res, i, upd, payl⟩ := by
            cases hrow
            rfl
          have hmk : String.mk c.1 = upd := congrArg Row.updated hEq
          have hc1 : c.1 = upd.data := by
            have := congrArg String.data hmk
            simpa using this
          have hwupd : w = upd.data := by
            rw [hw] at hc1
            simpa using hc1
          have hmid := esc_no_middle upd.data 0 c.2
            (quoteC :: (escChars payl.data ++ [quoteC, ')', ';'])) hhead
            (by
              rw [List.replicate_zero, List.nil_append]
              rw [hwupd] at hcs
              exact hcs.symm)
          have : noQuote upd = true := (noQuote_iff upd).mpr hmid.2
          rw [this] at hq
          cases hq
        · rw [if_neg hr8] at h
          cases h

theorem leadsWith_cons_ex (p : Char) (ps s : List Char) (h : leadsWith (p :: ps) s = true) :
    ∃ t, s = p :: t ∧ leadsWith ps t = true := by
  cases s with
  | nil => cases h
  | cons c cs =>
    have h2 : (c == p && leadsWith ps cs) = true := h
    rw [Bool.and_eq_true] at h2
    exact ⟨cs, by rw [beq_iff_eq.mp h2.1], h2.2⟩

theorem skipParts_false_of_insert_or_create (s : List Char)
    (h : leadsWith "INSERT".data s = true ∨ leadsWith "CREATE".data s = true) :
    (s.isEmpty || leadsWith "BEGIN TRANSACTION".data s || leadsWith "COMMIT".data s
      || leadsWith "PRAGMA".data s) = false := by
  rcases h with h | h
  · rw [show ("INSERT".data) = ['I', 'N', 'S', 'E', 'R', 'T'] by decide] at h
    obtain ⟨t, hs, -⟩ := leadsWith_cons_ex 'I' _ s h
    subst hs
    have h1 : leadsWith "BEGIN TRANSACTION".data ('I' :: t) = false := rfl
    have h2 : leadsWith "COMMIT".data ('I' :: t) = false := rfl
    have h3 : leadsWith "PRAGMA".data ('I' :: t) = false := rfl
    simp [h1, h2, h3]
  · rw [show ("CREATE".data) = ['C', 'R', 'E', 'A', 'T', 'E'] by decide] at h
    obtain ⟨t1, hs1, h1⟩ := leadsWith_cons_ex 'C' _ s h
    obtain ⟨t2, hs2, -⟩ := leadsWith_cons_ex 'R' _ t1 h1
    subst hs2
    subst hs1
    have h1 : leadsWith "BEGIN TRANSACTION".data ('C' :: 'R' :: t2) = false := rfl
    have h2 : leadsWith "COMMIT".data ('C' :: 'R' :: t2) = false := rfl
    have h3 : leadsWith "PRAGMA".data ('C' :: 'R' :: t2) = false := rfl
    simp [h1, h2, h3]

theorem skipLine_eq (line : String) :
    skipLine line = ((pyStrip line.data).isEmpty
      || leadsWith "BEGIN TRANSACTION".data (pyStrip line.data)
      || leadsWith "COMMIT".data (pyStrip line.data)
      || leadsWith "PRAGMA".data (pyStrip line.data)) := rfl

theorem storeAfter_idem (res : String) (data : List JsonObj) (s : List Row) :
    storeAfter res data (storeAfter res data s) = storeAfter res data s := by
  have hcanon : (storeAfter res data []).filter (fun r => !(touchedB res data r)) = [] := by
    rw [List.filter_eq_nil_iff]
    intro a ha hc
    obtain ⟨h1, h2⟩ := mem_storeAfter_nil res a data ha
    have ht : touchedB res data a = true := by simp [touchedB, h1, h2]
    simp [ht] at hc
  have hidem : (s.filter (fun r => !(touchedB res data r))).filter
      (fun r => !(touchedB res data r)) = s.filter (fun r => !(touchedB res data r)) := by
    rw [filter_pair]
    refine List.filter_congr (fun x _ => ?_)
    cases touchedB res data x <;> rfl
  calc storeAfter res data (storeAfter res data s)
      = (storeAfter res data s).filter (fun r => !(touchedB res data r)) ++
          storeAfter res data [] := storeAfter_decomp res data _
    _ = (s.filter (fun r => !(touchedB res data r)) ++ storeAfter res data []).filter
          (fun r => !(touchedB res data r)) ++ storeAfter res data [] := by
        rw [storeAfter_decomp res data s]
    _ = s.filter (fun r => !(touchedB res data r)) ++ storeAfter res data [] := by
        rw [List.filter_append, hidem, hcanon, List.append_nil]
    _ = storeAfter res data s := (storeAfter_decomp res data s).symm

theorem keysUnique_filter_len (t : List Row) (h : KeysUnique t) (a : String) (i : Int) :
    (t.filter (keyB a i)).length ≤ 1 := by
  have hp : KeysUnique (t.filter (keyB a i)) :=
    List.Pairwise.sublist (List.filter_sublist t) h
  cases hfl : t.filter (keyB a i) with
  | nil => simp
  | cons x xs =>
    cases xs with
    | nil => simp
    | cons y ys =>
      exfalso
      rw [hfl] at hp
      have hrel : ¬ KeyEq x y := (List.pairwise_cons.mp hp).1 y (by simp)
      have hx : keyB a i x = true := by
        have : x ∈ t.filter (keyB a i) := by rw [hfl]; simp
        exact (List.mem_filter.mp this).2
      have hy : keyB a i y = true := by
        have : y ∈ t.filter (keyB a i) := by rw [hfl]; simp
        exact (List.mem_filter.mp this).2
      simp only [keyB, Bool.and_eq_true, beq_iff_eq] at hx hy
      exact hrel ⟨hx.1.trans hy.1.symm, hx.2.trans hy.2.symm⟩

/-- C1: for every resource and fetched data array, when fetch_and_store
completes on a store holding no prior row of that resource, the rows
stored under the resource are exactly one row per distinct id of the
array, each carrying the updated value (defaulting to the empty string)
and the compact payload of the last occurrence of that id, and the row
count for the resource equals the number of distinct ids. -/
theorem claim_C1 (res : String) (data : List JsonObj) (s out : List Row)
    (hres : s.filter (fun r => r.resource == res) = [])
    (hok : fetch_and_store res data s = .ok out) :
    (∀ i : Int,
      out.filter (keyB res i) =
        (match (data.filter (fun o => o.id? == some i)).getLast? with
         | some o => [⟨res, i, o.updated?.getD "", o.dump⟩]
         | none => [])) ∧
    (out.filter (fun r => r.resource == res)).length =
      (data.filterMap (fun o => o.id?)).toFinset.card := by
  obtain ⟨hall, hout⟩ := (fetch_and_store_eq_ok_iff res data s out).mp hok
  subst hout
  constructor
  · intro i
    rw [filter_key_storeAfter res i s data hall]
    have hnil : s.filter (keyB res i) = [] := by
      rw [List.filter_eq_nil_iff]
      intro a ha hk
      rw [keyB, Bool.and_eq_true] at hk
      exact (List.filter_eq_nil_iff.mp hres a ha) hk.1
    cases (data.filter (fun o => o.id? == some i)).getLast? with
    | some o => rfl
    | none => exact hnil
  · rw [storeAfter_decomp, List.filter_append]
    have hfil : (s.filter (fun r => !(touchedB res data r))).filter
        (fun r => r.resource == res) = [] := by
      rw [filter_pair, List.filter_eq_nil_iff]
      intro a ha hcontra
      rw [Bool.and_eq_true] at hcontra
      exact (List.filter_eq_nil_iff.mp hres a ha) hcontra.2
    rw [hfil, List.nil_append]
    have hres2 : (storeAfter res data []).filter (fun r => r.resource == res) =
        storeAfter res data [] := by
      refine List.filter_eq_self.mpr ?_
      intro x hx
      have := (mem_storeAfter_nil res x data hx).1
      simp [this]
    rw [hres2]
    exact length_storeAfter_nil res data hall

/-- C4: fetch_and_store is idempotent: a second run with the identical
input leaves the table state unchanged, rows and order included. -/
theorem claim_C4 (res : String) (data : List JsonObj) (s out : List Row)
    (hok : fetch_and_store res data s = .ok out) :
    fetch_and_store res data out = .ok out := by
  obtain ⟨hall, hout⟩ := (fetch_and_store_eq_ok_iff res data s out).mp hok
  subst hout
  rw [fetch_and_store_eq_ok_iff]
  exact ⟨hall, (storeAfter_idem res data s).symm⟩

/-- C7: the import preserves uniqueness of the composite key
(resource, obj_id): from a store with unique keys, fetch_and_store yields
a store with unique keys, and every key owns at most one row. -/
theorem claim_C7 (res : String) (data : List JsonObj) (s out : List Row)
    (hu : KeysUnique s) (hok : fetch_and_store res data s = .ok out) :
    KeysUnique out ∧ ∀ (a : String) (i : Int), (out.filter (keyB a i)).length ≤ 1 := by
  obtain ⟨-, hout⟩ := (fetch_and_store_eq_ok_iff res data s out).mp hok
  subst hout
  have hk := keysUnique_storeAfter res data s hu
  exact ⟨hk, fun a i => keysUnique_filter_len _ hk a i⟩

/-- C9: a data array element without an id makes fetch_and_store abort
with an error (the NOT NULL constraint on obj_id); no table state is ever
returned, so a missing id is never stored as a null-keyed row. -/
theorem claim_C9 (res : String) (data : List JsonObj) (s : List Row) (o : JsonObj)
    (ho : o ∈ data) (hid : o.id? = none) :
    (∃ e, fetch_and_store res data s = .error e) ∧
    ∀ out, fetch_and_store res data s ≠ .ok out := by
  obtain ⟨e, he⟩ := fetch_and_store_error_of_missing_id res data s o ho hid
  refine ⟨⟨e, he⟩, fun out hc => ?_⟩
  rw [he] at hc
  cases hc

/-- C2 counterexample: a row present in the store file before a run and
not superseded by any fetched data is gone after the run, because main
begins with DROP TABLE IF EXISTS objects.  Concretely: prior store holds
one net row, every resource fetch returns an empty array, and the run
ends with an empty table. -/
theorem claim_C2_counterexample :
    runImport (RESOURCES.map (fun r => (r, Except.ok ([] : List JsonObj))))
      [⟨"net", 99, "u", "p"⟩] = .ok [] ∧
    (⟨"net", 99, "u", "p"⟩ : Row) ∈ ([⟨"net", 99, "u", "p"⟩] : List Row) ∧
    touchedB "net" [] ⟨"net", 99, "u", "p"⟩ = false ∧
    (⟨"net", 99, "u", "p"⟩ : Row) ∉ ([] : List Row) := by
  refine ⟨rfl, by simp, by decide, by simp⟩

/-- C2 amended: a run drops and recreates the objects table first, so
prior rows are all removed at import start; after that the import never
deletes a row: any row of the table whose key is not superseded by the
fetched array survives fetch_and_store, and the only DELETE statement the
program ever writes is the single per-resource one at the head of each
chunk file, followed there only by INSERT OR REPLACE statements. -/
theorem claim_C2 (res : String) (data : List JsonObj) (s out : List Row) (r : Row)
    (hok : fetch_and_store res data s = .ok out) (hr : r ∈ s)
    (huntouched : touchedB res data r = false) :
    r ∈ out ∧
    (∀ store : List Row,
      (chunkFileStmts res store).head? = some (deleteLineL res) ∧
      (chunkFileStmts res store).tail =
        (rowsFor res store).map (fun x => insertLineL res x.obj_id x.updated x.payload)) := by
  obtain ⟨-, hout⟩ := (fetch_and_store_eq_ok_iff res data s out).mp hok
  subst hout
  refine ⟨?_, fun store => ⟨rfl, rfl⟩⟩
  rw [storeAfter_decomp]
  exact List.mem_append.mpr (Or.inl (List.mem_filter.mpr ⟨hr, by simp [huntouched]⟩))

/-- C8: one failing resource aborts the whole run with that error: the
outcome is the error itself (a non-zero exit through SystemExit), it does
not depend on the resources after the failing one (they are never
processed), and a constraint violation inside a successfully fetched
array aborts the run the same way. -/
theorem claim_C8 (pre post : List (String × Except String (List JsonObj)))
    (res e : String) (prior st : List Row)
    (hpre : runImport pre prior = .ok st) :
    mainRun (pre ++ (res, Except.error e) :: post) prior = .error e ∧
    (∀ post2, mainRun (pre ++ (res, Except.error e) :: post) prior =
        mainRun (pre ++ (res, Except.error e) :: post2) prior) ∧
    mainRun (pre ++ (res, Except.error e) :: post) prior ≠ .ok 0 ∧
    (∀ (d : List JsonObj) (o : JsonObj), o ∈ d → o.id? = none →
      ∃ e2, mainRun (pre ++ (res, Except.ok d) :: post) prior = .error e2) := by
  rw [runImport] at hpre
  have h1 : ∀ post3 : List (String × Except String (List JsonObj)),
      runImport (pre ++ (res, Except.error e) :: post3) prior = .error e := by
    intro post3
    rw [runImport, runImportAux_append, hpre]
    show runImportAux ((res, Except.error e) :: post3) st = Except.error e
    rfl
  refine ⟨by rw [mainRun, h1 post]; rfl, ?_, ?_, ?_⟩
  · intro post2
    rw [mainRun, mainRun, h1 post, h1 post2]
  · rw [mainRun, h1 post]
    intro hc
    rw [show (Except.error e).map (fun _ => (0 : Nat)) = Except.error e from rfl] at hc
    cases hc
  · intro d o ho hid
    obtain ⟨e2, he2⟩ := fetch_and_store_error_of_missing_id res d st o ho hid
    have h2 : runImportAux (pre ++ (res, Except.ok d) :: post) [] = Except.error e2 := by
      rw [runImportAux_append, hpre]
      show runImportAux ((res, Except.ok d) :: post) st = Except.error e2
      simp only [runImportAux, he2]
    refine ⟨e2, ?_⟩
    rw [mainRun, runImport, h2]
    rfl

/-- C3 counterexample: a stored row whose updated value contains a single
quote breaks the chunk-file round-trip: the emitted INSERT OR REPLACE
statement does not parse, so replaying the chunk file fails instead of
reproducing the stored rows. -/
theorem claim_C3_counterexample :
    replayChunk (chunkFileStmts "net" [⟨"net", 1, "20\x2724", "p1"⟩]) = none ∧
    rowsFor "net" [⟨"net", 1, "20\x2724", "p1"⟩] = [⟨"net", 1, "20\x2724", "p1"⟩] ∧
    replayChunk (chunkFileStmts "net" [⟨"net", 1, "20\x2724", "p1"⟩]) ≠
      some (rowsFor "net" [⟨"net", 1, "20\x2724", "p1"⟩]) := by
  have h1 : replayChunk (chunkFileStmts "net" [⟨"net", 1, "20\x2724", "p1"⟩]) = none := rfl
  refine ⟨h1, rfl, ?_⟩
  rw [h1]
  intro hc
  cases hc

/-- C3 amended: for every resource, replaying the chunk file against an
empty objects table reproduces exactly the rows the store held for that
resource, provided the store keys are unique (the primary key invariant)
and neither the resource name nor any of its stored updated values
contains a single quote. -/
theorem claim_C3 (res : String) (store : List Row)
    (hu : KeysUnique store) (hres : noQuote res = true)
    (hupd : ∀ r ∈ store, r.resource = res → noQuote r.updated = true) :
    replayChunk (chunkFileStmts res store) = some (rowsFor res store) :=
  replayChunk_chunkFile res store hu hres hupd

/-- C5: the filtered dump drops exactly the blank lines and the lines
whose stripped form starts with BEGIN TRANSACTION, COMMIT or PRAGMA; all
other lines are kept verbatim and in order, in particular every line
whose stripped form starts with INSERT or CREATE. -/
theorem claim_C5 (lines : List String) :
    (∀ l ∈ filteredDump lines,
       (pyStrip l.data).isEmpty = false ∧
       leadsWith "BEGIN TRANSACTION".data (pyStrip l.data) = false ∧
       leadsWith "COMMIT".data (pyStrip l.data) = false ∧
       leadsWith "PRAGMA".data (pyStrip l.data) = false) ∧
    (filteredDump lines).Sublist lines ∧
    (∀ l ∈ lines, skipLine l = false → l ∈ filteredDump lines) ∧
    (∀ l ∈ lines,
       (leadsWith "INSERT".data (pyStrip l.data) = true ∨
        leadsWith "CREATE".data (pyStrip l.data) = true) → l ∈ filteredDump lines) := by
  refine ⟨?_, List.filter_sublist lines, ?_, ?_⟩
  · intro l hl
    have hmem := List.mem_filter.mp hl
    have hskip : skipLine l = false := by
      cases hs : skipLine l with
      | false => rfl
      | true =>
        have := hmem.2
        rw [hs] at this
        cases this
    rw [skipLine_eq] at hskip
    simp only [Bool.or_eq_false_iff] at hskip
    exact ⟨hskip.1.1.1, hskip.1.1.2, hskip.1.2, hskip.2⟩
  · intro l hl hskip
    exact List.mem_filter.mpr ⟨hl, by simp [hskip]⟩
  · intro l hl hIC
    have hfalse := skipParts_false_of_insert_or_create (pyStrip l.data) hIC
    refine List.mem_filter.mpr ⟨hl, ?_⟩
    rw [show skipLine l = ((pyStrip l.data).isEmpty
      || leadsWith "BEGIN TRANSACTION".data (pyStrip l.data)
      || leadsWith "COMMIT".data (pyStrip l.data)
      || leadsWith "PRAGMA".data (pyStrip l.data)) from rfl, hfalse]
    rfl

/-- C6: the chunk file of a resource is exactly the single leading DELETE
line followed by one INSERT OR REPLACE statement per stored row of that
resource; in these statements only the payload is escaped, by doubling
each single quote, while resource and updated are interpolated verbatim;
a payload containing O-quote-Brien appears with the quote doubled. -/
theorem claim_C6 :
    (∀ (res : String) (store : List Row),
      chunkFileStmts res store = deleteLineL res ::
        (rowsFor res store).map (fun r => insertLineL res r.obj_id r.updated r.payload) ∧
      (chunkFileStmts res store).length = 1 + (rowsFor res store).length) ∧
    (∀ (res : String) (i : Int) (upd payl : String),
      insertLineL res i upd payl =
        insPad ++ res.data ++ "\x27,".data ++ intToDec i ++ ",\x27".data ++ upd.data
          ++ "\x27,\x27".data ++ escChars payl.data ++ "\x27);".data) ∧
    escChars "O\x27Brien".data = "O\x27\x27Brien".data ∧
    String.mk (insertLineL "net" 7 "2024" "O\x27Brien") =
      "INSERT OR REPLACE INTO objects (resource,obj_id,updated,payload) VALUES (\x27net\x27,7,\x272024\x27,\x27O\x27\x27Brien\x27);" := by
  refine ⟨fun res store => ⟨rfl, by simp [chunkFileStmts, Nat.add_comm]⟩,
    fun res i upd payl => rfl, by decide, by decide⟩

/-- C10 counterexample to the malformedness part of the claim: updated
values whose quotes happen to pair up yield a statement that parses fine
as SQL, only to a different row, so the emitted statement is not always
malformed.  The round-trip is still broken: the parse yields a row whose
updated value differs from the stored one. -/
theorem claim_C10_counterexample :
    noQuote "a\x27\x27b" = false ∧
    parseStmtChars (insertLineL "net" 7 "a\x27\x27b" "p") =
      some (.sqlInsert ⟨"net", 7, "a\x27b", "p"⟩) ∧
    (⟨"net", 7, "a\x27b", "p"⟩ : Row) ≠ ⟨"net", 7, "a\x27\x27b", "p"⟩ := by
  refine ⟨by decide, by decide, by decide⟩

/-- C10 amended: the chunk writer escapes only the payload column;
resource and updated are interpolated verbatim into the statement text.
Consequently, for any row whose updated value contains a single quote
(and whose resource name, like all twelve fixed resources, does not), the
emitted INSERT OR REPLACE statement never parses back to that row: the
round-trip is broken for such rows, the statement being either a syntax
error or a statement denoting a different row. -/
theorem claim_C10 :
    (∀ (res : String) (i : Int) (upd payl : String),
      insertLineL res i upd payl =
        insPad ++ res.data ++ "\x27,".data ++ intToDec i ++ ",\x27".data ++ upd.data
          ++ "\x27,\x27".data ++ escChars payl.data ++ "\x27);".data) ∧
    (∀ (res : String) (i : Int) (upd payl : String),
      noQuote res = true → noQuote upd = false →
      parseStmtChars (insertLineL res i upd payl) ≠
        some (.sqlInsert ⟨res, i, upd, payl⟩)) :=
  ⟨fun _ _ _ _ => rfl,
   fun res i upd payl hres hq => parseStmt_insertLine_quote res i upd payl hres hq⟩

/-- Witness for C1 at a concrete fetch with a duplicate id and a missing
updated key. -/
theorem claim_C1_witness :
    (([] : List Row).filter (fun r => r.resource == "net") = []) ∧
    fetch_and_store "net"
      ([⟨some 1, some "A", "p1"⟩, ⟨some 2, none, "p2"⟩,
        ⟨some 1, some "B", "p3"⟩] : List JsonObj) [] =
      .ok [⟨"net", 2, "", "p2"⟩, ⟨"net", 1, "B", "p3"⟩] ∧
    ((∀ i : Int,
      ([⟨"net", 2, "", "p2"⟩, ⟨"net", 1, "B", "p3"⟩] : List Row).filter (keyB "net" i) =
        (match (([⟨some 1, some "A", "p1"⟩, ⟨some 2, none, "p2"⟩,
            ⟨some 1, some "B", "p3"⟩] : List JsonObj).filter
            (fun o => o.id? == some i)).getLast? with
         | some o => [⟨"net", i, o.updated?.getD "", o.dump⟩]
         | none => [])) ∧
    (([⟨"net", 2, "", "p2"⟩, ⟨"net", 1, "B", "p3"⟩] : List Row).filter
        (fun r => r.resource == "net")).length =
      (([⟨some 1, some "A", "p1"⟩, ⟨some 2, none, "p2"⟩,
        ⟨some 1, some "B", "p3"⟩] : List JsonObj).filterMap
        (fun o => o.id?)).toFinset.card) :=
  ⟨rfl, rfl, claim_C1 "net" _ [] _ rfl rfl⟩

/-- Witness for C2 at a concrete store holding a row of another resource. -/
theorem claim_C2_witness :
    fetch_and_store "net" ([⟨some 1, some "A", "x"⟩] : List JsonObj)
      [⟨"org", 5, "u", "p"⟩] = .ok [⟨"org", 5, "u", "p"⟩, ⟨"net", 1, "A", "x"⟩] ∧
    (⟨"org", 5, "u", "p"⟩ : Row) ∈ ([⟨"org", 5, "u", "p"⟩] : List Row) ∧
    touchedB "net" ([⟨some 1, some "A", "x"⟩] : List JsonObj) ⟨"org", 5, "u", "p"⟩ = false ∧
    ((⟨"org", 5, "u", "p"⟩ : Row) ∈
      ([⟨"org", 5, "u", "p"⟩, ⟨"net", 1, "A", "x"⟩] : List Row) ∧
    (∀ store : List Row,
      (chunkFileStmts "net" store).head? = some (deleteLineL "net") ∧
      (chunkFileStmts "net" store).tail =
        (rowsFor "net" store).map
          (fun x => insertLineL "net" x.obj_id x.updated x.payload))) :=
  ⟨rfl, by simp, by decide,
   claim_C2 "net" ([⟨some 1, some "A", "x"⟩] : List JsonObj) [⟨"org", 5, "u", "p"⟩]
     [⟨"org", 5, "u", "p"⟩, ⟨"net", 1, "A", "x"⟩] ⟨"org", 5, "u", "p"⟩ rfl (by simp)
     (by decide)⟩

/-- Witness for C3 at a concrete two-resource store whose payload needs
quote escaping. -/
theorem claim_C3_witness :
    KeysUnique [⟨"net", 1, "2024", "O\x27Brien"⟩, ⟨"org", 2, "u", "q"⟩] ∧
    noQuote "net" = true ∧
    (∀ r ∈ ([⟨"net", 1, "2024", "O\x27Brien"⟩, ⟨"org", 2, "u", "q"⟩] : List Row),
      r.resource = "net" → noQuote r.updated = true) ∧
    replayChunk (chunkFileStmts "net"
        [⟨"net", 1, "2024", "O\x27Brien"⟩, ⟨"org", 2, "u", "q"⟩]) =
      some (rowsFor "net" [⟨"net", 1, "2024", "O\x27Brien"⟩, ⟨"org", 2, "u", "q"⟩]) :=
  ⟨by decide, by decide, by decide,
   claim_C3 "net" _ (by decide) (by decide) (by decide)⟩

/-- Witness for C4 at a concrete one-row fetch. -/
theorem claim_C4_witness :
    fetch_and_store "net" ([⟨some 1, some "u", "pp"⟩] : List JsonObj) [] =
      .ok [⟨"net", 1, "u", "pp"⟩] ∧
    fetch_and_store "net" ([⟨some 1, some "u", "pp"⟩] : List JsonObj)
      [⟨"net", 1, "u", "pp"⟩] = .ok [⟨"net", 1, "u", "pp"⟩] :=
  ⟨rfl, claim_C4 "net" _ [] _ rfl⟩

/-- Witness for C5 at a concrete dump with one line of each kind. -/
theorem claim_C5_witness :
    (∀ l ∈ filteredDump ["PRAGMA foo;", "", "INSERT INTO objects VALUES (1);"],
       (pyStrip l.data).isEmpty = false ∧
       leadsWith "BEGIN TRANSACTION".data (pyStrip l.data) = false ∧
       leadsWith "COMMIT".data (pyStrip l.data) = false ∧
       leadsWith "PRAGMA".data (pyStrip l.data) = false) ∧
    (filteredDump ["PRAGMA foo;", "", "INSERT INTO objects VALUES (1);"]).Sublist
      ["PRAGMA foo;", "", "INSERT INTO objects VALUES (1);"] ∧
    (∀ l ∈ ["PRAGMA foo;", "", "INSERT INTO objects VALUES (1);"], skipLine l = false →
      l ∈ filteredDump ["PRAGMA foo;", "", "INSERT INTO objects VALUES (1);"]) ∧
    (∀ l ∈ ["PRAGMA foo;", "", "INSERT INTO objects VALUES (1);"],
       (leadsWith "INSERT".data (pyStrip l.data) = true ∨
        leadsWith "CREATE".data (pyStrip l.data) = true) →
      l ∈ filteredDump ["PRAGMA foo;", "", "INSERT INTO objects VALUES (1);"]) :=
  claim_C5 ["PRAGMA foo;", "", "INSERT INTO objects VALUES (1);"]

/-- Witness for C6: the chunk file of a concrete one-row store. -/
theorem claim_C6_witness :
    chunkFileStmts "net" [⟨"net", 7, "2024", "O\x27Brien"⟩] =
      deleteLineL "net" ::
        (rowsFor "net" [⟨"net", 7, "2024", "O\x27Brien"⟩]).map
          (fun r => insertLineL "net" r.obj_id r.updated r.payload) :=
  (claim_C6.1 "net" [⟨"net", 7, "2024", "O\x27Brien"⟩]).1

/-- Witness for C7 at a concrete fetch that re-imports one key. -/
theorem claim_C7_witness :
    KeysUnique ([] : List Row) ∧
    fetch_and_store "net"
      ([⟨some 1, some "u", "x"⟩, ⟨some 1, some "v", "y"⟩] : List JsonObj) [] =
      .ok [⟨"net", 1, "v", "y"⟩] ∧
    (KeysUnique [⟨"net", 1, "v", "y"⟩] ∧
     ∀ (a : String) (i : Int),
       (([⟨"net", 1, "v", "y"⟩] : List Row).filter (keyB a i)).length ≤ 1) :=
  ⟨by decide, rfl, claim_C7 "net"
    ([⟨some 1, some "u", "x"⟩, ⟨some 1, some "v", "y"⟩] : List JsonObj) []
    [⟨"net", 1, "v", "y"⟩] (by decide) rfl⟩

/-- Witness for C8 at a run whose second resource fails. -/
theorem claim_C8_witness :
    runImport [("org", Except.ok ([] : List JsonObj))] [] = .ok [] ∧
    (mainRun ([("org", Except.ok ([] : List JsonObj))] ++
        ("net", Except.error "boom") :: [("fac", Except.ok ([] : List JsonObj))]) [] =
      .error "boom" ∧
    (∀ post2, mainRun ([("org", Except.ok ([] : List JsonObj))] ++
        ("net", Except.error "boom") :: [("fac", Except.ok ([] : List JsonObj))]) [] =
        mainRun ([("org", Except.ok ([] : List JsonObj))] ++
          ("net", Except.error "boom") :: post2) []) ∧
    mainRun ([("org", Except.ok ([] : List JsonObj))] ++
        ("net", Except.error "boom") :: [("fac", Except.ok ([] : List JsonObj))]) [] ≠
      .ok 0 ∧
    (∀ (d : List JsonObj) (o : JsonObj), o ∈ d → o.id? = none →
      ∃ e2, mainRun ([("org", Except.ok ([] : List JsonObj))] ++
        ("net", Except.ok d) :: [("fac", Except.ok ([] : List JsonObj))]) [] =
        .error e2)) :=
  ⟨rfl, claim_C8 [("org", Except.ok ([] : List JsonObj))]
    [("fac", Except.ok ([] : List JsonObj))] "net" "boom" [] [] rfl⟩

/-- Witness for C9 at a concrete array whose element lacks an id. -/
theorem claim_C9_witness :
    (⟨none, some "u", "z"⟩ : JsonObj) ∈ ([⟨none, some "u", "z"⟩] : List JsonObj) ∧
    (⟨none, some "u", "z"⟩ : JsonObj).id? = none ∧
    ((∃ e, fetch_and_store "net" ([⟨none, some "u", "z"⟩] : List JsonObj) [] = .error e) ∧
     ∀ out, fetch_and_store "net" ([⟨none, some "u", "z"⟩] : List JsonObj) [] ≠ .ok out) :=
  ⟨by simp, rfl, claim_C9 "net" _ [] ⟨none, some "u", "z"⟩ (by simp) rfl⟩

/-- Witness for C10 at a concrete row whose updated value holds a lone
quote. -/
theorem claim_C10_witness :
    noQuote "net" = true ∧ noQuote "20\x2724" = false ∧
    parseStmtChars (insertLineL "net" 1 "20\x2724" "p") ≠
      some (.sqlInsert ⟨"net", 1, "20\x2724", "p"⟩) :=
  ⟨by decide, by decide, claim_C10.2 "net" 1 "20\x2724" "p" (by decide) (by decide)⟩
